import Mathlib

/-!
# Verification of the cell-counting batch analyzer

A shallow embedding of the repository's `main.py`, which scans paired
cellpose segmentation artifacts (a cell-label grid and an exclusion grid per
image), counts the cells whose centroid lies outside excluded area, measures
the non-excluded area, derives a density, and emits one report row per file.

Modelling decisions:
* a numpy 2-D integer array is a `Grid`, a list of rows of integers;
* the outcome of `np.load` plus the dictionary `'masks'` extraction
  (`main.py` lines 63-74 and 78-86) is abstracted by `LoadResult`:
  the loader raised, the payload lacked the `'masks'` key, or a grid came out;
* `float` arithmetic (the `mean` of pixel indices) is modelled by exact
  rational arithmetic, and Python's `int()` by truncation toward zero;
* an out-of-range numpy index raises `IndexError`; inside the counting loop
  (line 107) no handler is installed, which the embedding renders as
  `Except.error` propagating out of `countValidCells` and aborting the batch.
-/

namespace CellCount

/-- A numpy 2-D integer array: a list of rows. -/
abbrev Grid := List (List Int)

/-- Number of rows (`arr.shape[0]`). -/
def height (g : Grid) : Nat := g.length

/-- Number of columns (`arr.shape[1]`). -/
def width (g : Grid) : Nat := (g.headD []).length

/-- `arr.shape` of a 2-D array. -/
def shape (g : Grid) : Nat × Nat := (height g, width g)

/-- A real numpy 2-D array is rectangular: every row has the common width. -/
def Rectangular (g : Grid) : Prop := ∀ r ∈ g, r.length = width g

instance : DecidablePred Rectangular := fun g => List.decidableBAll _ g

/-- `arr[y, x]` for non-negative indices: `none` models the `IndexError`
raised when an index is out of range. -/
def getPix (g : Grid) (y x : Nat) : Option Int :=
  (g[y]?).bind fun row => row[x]?

/-- Python's `int()` truncates toward zero. -/
def truncToZero (q : ℚ) : Int := if q < 0 then ⌈q⌉ else ⌊q⌋

/-- `int(mean(l))` for a list of pixel indices: the exact arithmetic mean,
truncated toward zero (non-negative here, so `toNat` loses nothing). -/
def truncMean (l : List Nat) : Nat :=
  (truncToZero ((l.sum : ℚ) / (l.length : ℚ))).toNat

/-- `np.argwhere(cell_mask == L)` (line 101): the coordinates carrying the
label `L`, in row-major order. -/
def coordsOf (g : Grid) (L : Int) : List (Nat × Nat) :=
  (g.enum.map fun yr =>
    yr.2.enum.filterMap fun xv =>
      if xv.2 = L then some (yr.1, xv.1) else none).flatten

/-- Lines 103-104: the mean of the label's row and column indices,
each truncated to an integer pixel coordinate. -/
def centroid (g : Grid) (L : Int) : Nat × Nat :=
  (truncMean ((coordsOf g L).map Prod.fst),
   truncMean ((coordsOf g L).map Prod.snd))

/-- Line 96, `np.unique(cell_mask[cell_mask > 0])`: the distinct strictly
positive labels, in ascending order. -/
def uniqueCells (g : Grid) : List Int :=
  ((g.flatten.filter fun v => 0 < v).dedup).mergeSort (· ≤ ·)

/-- Lines 96-108: the counting loop. Each label's centroid is looked up in
the exclusion grid; a value `0` there counts the label as a valid cell.
An out-of-range lookup is numpy's `IndexError`, uncaught at this point. -/
def countValidCells (cm em : Grid) : Except Unit Nat :=
  (uniqueCells cm).foldlM
    (fun acc L =>
      match getPix em (centroid cm L).1 (centroid cm L).2 with
      | none => Except.error ()
      | some v => Except.ok (if v = 0 then acc + 1 else acc))
    0

/-- Line 111, `np.sum(exclude_mask == 0)`: how many entries are zero. -/
def countZeros (g : Grid) : Nat := (g.flatten.filter fun v => v = 0).length

/-- Total number of entries of the grid (`arr.size`). -/
def numPixels (g : Grid) : Nat := g.flatten.length

/-- `np.zeros_like(cell_mask)` (lines 86 and 89). -/
def zerosLike (g : Grid) : Grid := g.map fun row => row.map fun _ => 0

/-- Lines 115-118: density is guarded by `area > 0`; no division fault. -/
def density (valid : Nat) (area : ℚ) : ℚ :=
  if area > 0 then (valid : ℚ) / area else 0

/-- The statistics of one result dict (lines 121-125). -/
structure CellRecord where
  total_cells : Nat
  total_area : ℚ
  cell_density : ℚ
deriving DecidableEq

/-- What `np.load` plus the `'masks'` extraction can yield for one file:
the loader raised, the 0-dim dictionary payload had no `'masks'` key
(`.get` returned `None`), or a usable grid. -/
inductive LoadResult where
  | raises
  | missingKey
  | grid (g : Grid)
deriving DecidableEq

/-- The exclusion side of a file pair: the file may be absent altogether
(line 77's `exclude_file.exists()` is false), or present and loaded. -/
inductive ExclSource where
  | absent
  | present (r : LoadResult)
deriving DecidableEq

/-- Outcome of one iteration of the per-file loop: `skipped` is a
`continue` after a warning, `fatal` is an uncaught exception that aborts
the whole run, `recorded` appends one result dict. -/
inductive FileOutcome where
  | skipped
  | fatal
  | recorded (r : CellRecord)
deriving DecidableEq

/-- Lines 62-125, the body of the loop for one file pair.
* a raising cell load or a cell payload without `'masks'`: skip (62-74, 91-93);
* missing exclusion file: an all-zero grid stands in (87-89);
* raising exclusion load: the shared handler skips the pair (91-93);
* exclusion payload without `'masks'`: an all-zero grid stands in (84-86);
* then the counting loop runs outside any handler, so an out-of-range
  centroid lookup is fatal; otherwise area and density are computed. -/
def processPair (cell : LoadResult) (excl : ExclSource) (pixel_size : ℚ) :
    FileOutcome :=
  match cell with
  | .raises => .skipped
  | .missingKey => .skipped
  | .grid cm =>
    let em? : Option Grid :=
      match excl with
      | .absent => some (zerosLike cm)
      | .present .raises => none
      | .present .missingKey => some (zerosLike cm)
      | .present (.grid e) => some e
    match em? with
    | none => .skipped
    | some em =>
      match countValidCells cm em with
      | .error _ => .fatal
      | .ok valid =>
        let area : ℚ := (countZeros em : ℚ) * pixel_size ^ 2
        .recorded ⟨valid, area, density valid area⟩

/-- The batch loop of `analyze_cells` (lines 54-137) over the statistics
part of the per-file work: a skipped pair leaves no record, a recorded pair
appends one, and a fatal outcome aborts the run with the exception. -/
def runBatch (pairs : List (LoadResult × ExclSource)) (pixel_size : ℚ) :
    Except Unit (List CellRecord) :=
  match pairs with
  | [] => .ok []
  | (c, e) :: rest =>
    match processPair c e pixel_size with
    | .skipped => runBatch rest pixel_size
    | .fatal => .error ()
    | .recorded r => (runBatch rest pixel_size).map fun rs => r :: rs

/-- The distinct strictly positive labels of a grid, as a set. -/
def positiveLabels (g : Grid) : Finset Int :=
  (g.flatten.filter fun v => 0 < v).toFinset

/-- Lines 19-22: the filename with a trailing `_seg.npy` (8 characters)
stripped, when present.  `filename.endswith('_seg.npy')` is rendered as a
suffix test on the character sequences. -/
def stripSegSuffix (filename : String) : String :=
  if "_seg.npy".data.isSuffixOf filename.data then filename.dropRight 8
  else filename

/-- Lines 17-22: directory segments in order, then the stripped filename. -/
def pathParts (dirParts : List String) (filename : String) : List String :=
  dirParts ++ [stripSegSuffix filename]

/-- `result[k] = v` on a Python dict rendered as an association list in
insertion order: an existing key keeps its position and takes the new
value, a new key is appended. -/
def dictInsert (d : List (String × String)) (k v : String) :
    List (String × String) :=
  if d.any fun kv => kv.1 = k then
    d.map fun kv => if kv.1 = k then (k, v) else kv
  else
    d ++ [(k, v)]

/-- `d.get(k, '')` on a Python dict. -/
def dictGet (d : List (String × String)) (k : String) : String :=
  match d.find? fun kv => kv.1 = k with
  | some kv => kv.2
  | none => ""

/-- Lines 8-31, `parse_path_to_columns`: the path's segments (directories,
then the stripped filename) are assigned positionally to the column names;
a name beyond the segments receives `''` (`parts.getD i ""` is exactly
`parts[i] if i < len(parts) else ''`). -/
def parse_path_to_columns (dirParts : List String) (filename : String)
    (column_names : List String) : List (String × String) :=
  let parts := pathParts dirParts filename
  column_names.enum.foldl
    (fun result ic => dictInsert result ic.2 (parts.getD ic.1 ""))
    []

/-- Line 175 of `save_results_to_excel`: the identity cells of one row,
`[path_cols.get(col, '') for col in column_names]`. -/
def excelRow (path_cols : List (String × String)) (column_names : List String) :
    List String :=
  column_names.map fun col => dictGet path_cols col

/-- Lines 131-135: the fallback identity when no column names are given:
`parent_folder` is the name of the immediate containing directory (`''`
when the file sits at the scanned root), `file_path` the relative path
rendered with `/` separators. -/
def fallbackIdentity (dirParts : List String) (filename : String) :
    String × String :=
  ((if dirParts.isEmpty then "" else dirParts.getLastD ""),
   String.intercalate "/" (dirParts ++ [filename]))

/-! ## Evaluation and bounds lemmas -/

/-- The truncated mean of a list of natural indices is their floor-division
mean: truncation toward zero agrees with the floor on non-negative values. -/
theorem truncMean_eq (l : List Nat) : truncMean l = l.sum / l.length := by
  have h0 : (0 : ℚ) ≤ (l.sum : ℚ) / (l.length : ℚ) := by positivity
  unfold truncMean truncToZero
  rw [if_neg (not_lt.mpr h0), Int.floor_toNat, Nat.floor_div_nat,
    Nat.floor_natCast]

/-- The centroid, evaluated: floor-division means of the coordinates. -/
theorem centroid_eq_div (g : Grid) (L : Int) :
    centroid g L =
      (((coordsOf g L).map Prod.fst).sum / ((coordsOf g L).map Prod.fst).length,
       ((coordsOf g L).map Prod.snd).sum / ((coordsOf g L).map Prod.snd).length) := by
  simp [centroid, truncMean_eq]

/-- A coordinate pair lists in `coordsOf g L` exactly when the grid holds
`L` there. -/
theorem mem_coordsOf {g : Grid} {L : Int} {y x : Nat} :
    (y, x) ∈ coordsOf g L ↔ getPix g y x = some L := by
  constructor
  · intro hmem
    obtain ⟨inner, hinner, hc⟩ := List.mem_flatten.mp hmem
    obtain ⟨⟨y', row⟩, hrow, rfl⟩ := List.mem_map.mp hinner
    obtain ⟨⟨x', v⟩, hv, hsome⟩ := List.mem_filterMap.mp hc
    rw [List.mem_enum_iff_getElem?] at hrow hv
    by_cases hvL : v = L
    · subst hvL
      rw [if_pos rfl] at hsome
      simp only [Option.some.injEq, Prod.mk.injEq] at hsome
      obtain ⟨rfl, rfl⟩ := hsome
      rw [getPix, Option.bind_eq_some]
      exact ⟨row, hrow, hv⟩
    · rw [if_neg hvL] at hsome
      exact absurd hsome (by simp)
  · intro h
    rw [getPix, Option.bind_eq_some] at h
    obtain ⟨row, hrow, hx⟩ := h
    refine List.mem_flatten.mpr ⟨_, List.mem_map.mpr
      ⟨(y, row), List.mem_enum_iff_getElem?.mpr hrow, rfl⟩, ?_⟩
    exact List.mem_filterMap.mpr
      ⟨(x, L), List.mem_enum_iff_getElem?.mpr hx, by simp⟩

/-- Every coordinate of a label is inside the grid; on a rectangular grid
its column is below the common width. -/
theorem coordsOf_bounds {g : Grid} {L : Int} {c : Nat × Nat}
    (hc : c ∈ coordsOf g L) (hg : Rectangular g) :
    c.1 < height g ∧ c.2 < width g := by
  obtain ⟨y, x⟩ := c
  have h := mem_coordsOf.mp hc
  rw [getPix, Option.bind_eq_some] at h
  obtain ⟨row, hrow, hx⟩ := h
  obtain ⟨hy, hget⟩ := List.getElem?_eq_some_iff.mp hrow
  have hrowmem : row ∈ g := hget ▸ g.getElem_mem hy
  have hxlt : x < row.length := (List.getElem?_eq_some_iff.mp hx).choose
  exact ⟨hy, hg row hrowmem ▸ hxlt⟩

/-- A label occurring in the grid has at least one coordinate. -/
theorem coordsOf_ne_nil {g : Grid} {L : Int} (h : L ∈ g.flatten) :
    coordsOf g L ≠ [] := by
  obtain ⟨row, hrow, hL⟩ := List.mem_flatten.mp h
  obtain ⟨y, hy, rfl⟩ := List.mem_iff_getElem.mp hrow
  obtain ⟨x, hx, rfl⟩ := List.mem_iff_getElem.mp hL
  refine List.ne_nil_of_mem (a := (y, x)) (mem_coordsOf.mpr ?_)
  rw [getPix, List.getElem?_eq_getElem hy]
  simp [List.getElem?_eq_getElem hx]

/-- Bounded lists have bounded truncated mean. -/
theorem truncMean_le {l : List Nat} {B : Nat} (h : ∀ y ∈ l, y ≤ B) :
    truncMean l ≤ B := by
  rw [truncMean_eq]
  rcases Nat.eq_zero_or_pos l.length with h0 | hpos
  · simp [h0]
  · have hsum : l.sum ≤ l.length * B := by
      calc l.sum ≤ l.length • B := List.sum_le_card_nsmul l B h
      _ = l.length * B := smul_eq_mul ..
    calc l.sum / l.length ≤ l.length * B / l.length := Nat.div_le_div_right hsum
    _ = B := Nat.mul_div_cancel_left B hpos

/-- On a rectangular grid, the centroid of an occurring label is an
in-range pixel coordinate. -/
theorem centroid_lt {g : Grid} {L : Int} (hg : Rectangular g)
    (hL : L ∈ g.flatten) :
    (centroid g L).1 < height g ∧ (centroid g L).2 < width g := by
  have hne := coordsOf_ne_nil hL
  obtain ⟨c, hc⟩ := List.exists_mem_of_ne_nil _ hne
  obtain ⟨hy, hx⟩ := coordsOf_bounds hc hg
  have hH : 0 < height g := by omega
  have hW : 0 < width g := by omega
  constructor
  · have : truncMean ((coordsOf g L).map Prod.fst) ≤ height g - 1 := by
      refine truncMean_le fun y hy' => ?_
      obtain ⟨c', hc', rfl⟩ := List.mem_map.mp hy'
      exact Nat.le_sub_one_of_lt (coordsOf_bounds hc' hg).1
    calc (centroid g L).1 ≤ height g - 1 := this
    _ < height g := Nat.sub_lt hH Nat.one_pos
  · have : truncMean ((coordsOf g L).map Prod.snd) ≤ width g - 1 := by
      refine truncMean_le fun x hx' => ?_
      obtain ⟨c', hc', rfl⟩ := List.mem_map.mp hx'
      exact Nat.le_sub_one_of_lt (coordsOf_bounds hc' hg).2
    calc (centroid g L).2 ≤ width g - 1 := this
    _ < width g := Nat.sub_lt hW Nat.one_pos

/-- An in-range lookup on a rectangular grid succeeds. -/
theorem getPix_isSome {g : Grid} {y x : Nat} (hg : Rectangular g)
    (hy : y < height g) (hx : x < width g) :
    (getPix g y x).isSome := by
  rw [getPix, List.getElem?_eq_getElem hy]
  have hrowmem : g[y] ∈ g := g.getElem_mem hy
  have hxlt : x < (g[y]).length := hg _ hrowmem ▸ hx
  simp [List.getElem?_eq_getElem hxlt]

/-! ## The counting loop, characterized -/

/-- The counting fold over an arbitrary label list and accumulator: it
succeeds exactly when every centroid lookup is in range, and then adds the
number of labels whose exclusion value at the centroid is zero. -/
theorem countFold_eq (cm em : Grid) (l : List Int) (n : Nat) :
    (l.foldlM (fun acc L =>
        match getPix em (centroid cm L).1 (centroid cm L).2 with
        | none => Except.error ()
        | some v => Except.ok (if v = 0 then acc + 1 else acc)) n
      : Except Unit Nat) =
      if ∀ L ∈ l, (getPix em (centroid cm L).1 (centroid cm L).2).isSome then
        Except.ok (n + l.countP fun L =>
          getPix em (centroid cm L).1 (centroid cm L).2 == some 0)
      else Except.error () := by
  induction l generalizing n with
  | nil => simp; rfl
  | cons L t ih =>
    rw [List.foldlM_cons]
    cases hL : getPix em (centroid cm L).1 (centroid cm L).2 with
    | none =>
      have hnot : ¬ ∀ M ∈ L :: t,
          (getPix em (centroid cm M).1 (centroid cm M).2).isSome := by
        intro hall
        have := hall L (List.mem_cons_self ..)
        rw [hL] at this
        exact absurd this (by simp)
      rw [if_neg hnot]
      rfl
    | some v =>
      show (t.foldlM _ (if v = 0 then n + 1 else n) : Except Unit Nat) = _
      rw [ih]
      have hcond : (∀ M ∈ L :: t,
            (getPix em (centroid cm M).1 (centroid cm M).2).isSome) ↔
          ∀ M ∈ t, (getPix em (centroid cm M).1 (centroid cm M).2).isSome := by
        simp [hL]
      by_cases ht : ∀ M ∈ t, (getPix em (centroid cm M).1 (centroid cm M).2).isSome
      · rw [if_pos ht, if_pos (hcond.mpr ht)]
        congr 1
        rw [List.countP_cons, hL]
        by_cases hv : v = 0
        · simp [hv]
          omega
        · simp [hv]
      · rw [if_neg ht, if_neg fun hc => ht (hcond.mp hc)]

/-- `countValidCells`, characterized over the distinct-positive-label
list. -/
theorem countValidCells_eq (cm em : Grid) :
    countValidCells cm em =
      if ∀ L ∈ uniqueCells cm,
          (getPix em (centroid cm L).1 (centroid cm L).2).isSome then
        Except.ok ((uniqueCells cm).countP fun L =>
          getPix em (centroid cm L).1 (centroid cm L).2 == some 0)
      else Except.error () := by
  rw [countValidCells, countFold_eq]
  simp

/-- `np.unique` sorts; the counting result only depends on the distinct
labels, so the unsorted dedup list gives the same answer. -/
theorem uniqueCells_perm (g : Grid) :
    (uniqueCells g).Perm ((g.flatten.filter fun v => 0 < v).dedup) :=
  List.mergeSort_perm ..

/-- `countValidCells` over the unsorted dedup list, success case: every
centroid lookup lands in range. -/
theorem countValidCells_eq_dedup_ok (cm em : Grid)
    (h : ∀ L ∈ (cm.flatten.filter fun v => decide (0 < v)).dedup,
      (getPix em (centroid cm L).1 (centroid cm L).2).isSome) :
    countValidCells cm em =
      Except.ok (((cm.flatten.filter fun v => decide (0 < v)).dedup).countP
        fun L => getPix em (centroid cm L).1 (centroid cm L).2 == some 0) := by
  rw [countValidCells_eq]
  have hp := uniqueCells_perm cm
  rw [if_pos fun L hL => h L (hp.mem_iff.mp hL), hp.countP_eq]

/-- `countValidCells` over the unsorted dedup list, failure case: some
centroid lookup is out of range, and the `IndexError` escapes. -/
theorem countValidCells_eq_dedup_err (cm em : Grid)
    (h : ¬ ∀ L ∈ (cm.flatten.filter fun v => decide (0 < v)).dedup,
      (getPix em (centroid cm L).1 (centroid cm L).2).isSome) :
    countValidCells cm em = Except.error () := by
  rw [countValidCells_eq]
  have hp := uniqueCells_perm cm
  exact if_neg fun hall => h fun L hL => hall L (hp.mem_iff.mpr hL)

/-- Counting over the dedup list is a `Finset.card` over the distinct
positive labels. -/
theorem countP_dedup_card (l : List Int) (p : Int → Bool) :
    l.dedup.countP p = (l.toFinset.filter fun v => p v).card := by
  rw [List.countP_eq_length_filter]
  have hnd : (l.dedup.filter p).Nodup := l.nodup_dedup.filter p
  rw [← List.toFinset_card_of_nodup hnd, List.toFinset_filter]
  congr 2
  ext a
  simp

/-- The distinct-label list has as many entries as `positiveLabels`. -/
theorem length_uniqueCells (g : Grid) :
    (uniqueCells g).length = (positiveLabels g).card := by
  rw [(uniqueCells_perm g).length_eq, positiveLabels, List.card_toFinset]

/-! ## The all-zero stand-in grid -/

/-- A lookup in `zerosLike g` sees `0` wherever `g` has an entry. -/
theorem getPix_zerosLike (g : Grid) (y x : Nat) :
    getPix (zerosLike g) y x = (getPix g y x).map fun _ => 0 := by
  rw [getPix, getPix, zerosLike, List.getElem?_map]
  cases g[y]? with
  | none => rfl
  | some row =>
    show (row.map fun _ => (0 : Int))[x]? = (row[x]?).map fun _ => 0
    rw [List.getElem?_map]

/-- `zerosLike` keeps the height. -/
theorem height_zerosLike (g : Grid) : height (zerosLike g) = height g := by
  simp [height, zerosLike]

/-- `zerosLike` keeps the width. -/
theorem width_zerosLike (g : Grid) : width (zerosLike g) = width g := by
  cases g with
  | nil => rfl
  | cons r t => simp [width, zerosLike]

/-- Every entry of `zerosLike g` is zero, so its zero count is the full
pixel count of `g`. -/
theorem countZeros_zerosLike (g : Grid) :
    countZeros (zerosLike g) = numPixels g := by
  rw [countZeros, numPixels, zerosLike]
  induction g with
  | nil => rfl
  | cons r t ih =>
    simp only [List.map_cons, List.flatten_cons, List.filter_append,
      List.length_append, ih, List.filter_map, List.length_map]
    simp [Function.comp]

/-- `zerosLike` keeps rectangularity. -/
theorem rectangular_zerosLike {g : Grid} (hg : Rectangular g) :
    Rectangular (zerosLike g) := by
  intro r hr
  rw [zerosLike] at hr
  obtain ⟨row, hrow, rfl⟩ := List.mem_map.mp hr
  rw [List.length_map, width_zerosLike]
  exact hg row hrow

/-- Labels of the distinct-label list occur in the grid. -/
theorem mem_flatten_of_mem_uniqueCells {g : Grid} {L : Int}
    (hL : L ∈ uniqueCells g) : L ∈ g.flatten :=
  (List.mem_filter.mp (List.mem_dedup.mp ((uniqueCells_perm g).mem_iff.mp hL))).1

/-- Counting against the all-zero stand-in grid counts every distinct
positive label. -/
theorem countValidCells_zerosLike (g : Grid) (hg : Rectangular g) :
    countValidCells g (zerosLike g) = Except.ok ((positiveLabels g).card) := by
  rw [countValidCells_eq]
  have hsome : ∀ L ∈ uniqueCells g,
      (getPix (zerosLike g) (centroid g L).1 (centroid g L).2).isSome := by
    intro L hL
    obtain ⟨hy, hx⟩ := centroid_lt hg (mem_flatten_of_mem_uniqueCells hL)
    have h := getPix_isSome hg hy hx
    rw [getPix_zerosLike]
    simpa using h
  rw [if_pos hsome, ← length_uniqueCells]
  congr 1
  refine List.countP_eq_length.mpr fun L hL => ?_
  have h := hsome L hL
  rw [getPix_zerosLike] at h ⊢
  cases hv : getPix g (centroid g L).1 (centroid g L).2 with
  | none => rw [hv] at h; exact absurd h (by simp)
  | some v => simp

/-- `processPair` on two present grids, unfolded. -/
theorem processPair_grid_grid (cm em : Grid) (ps : ℚ) :
    processPair (.grid cm) (.present (.grid em)) ps =
      match countValidCells cm em with
      | .error _ => .fatal
      | .ok valid => .recorded ⟨valid, (countZeros em : ℚ) * ps ^ 2,
          density valid ((countZeros em : ℚ) * ps ^ 2)⟩ := rfl

/-- A missing exclusion file and an all-zero exclusion grid are processed
identically (line 89). -/
theorem processPair_absent (g : Grid) (ps : ℚ) :
    processPair (.grid g) .absent ps =
      processPair (.grid g) (.present (.grid (zerosLike g))) ps := rfl

/-- An exclusion payload without the `'masks'` key and an all-zero
exclusion grid are processed identically (line 86). -/
theorem processPair_exclusion_missingKey (g : Grid) (ps : ℚ) :
    processPair (.grid g) (.present .missingKey) ps =
      processPair (.grid g) (.present (.grid (zerosLike g))) ps := rfl

/-- Whatever a recorded pair's cell grid did, its area column is the zero
count of the exclusion grid times the pixel area. -/
theorem recorded_total_area {cm em : Grid} {ps : ℚ} {r : CellRecord}
    (h : processPair (.grid cm) (.present (.grid em)) ps = .recorded r) :
    r.total_area = (countZeros em : ℚ) * ps ^ 2 := by
  rw [processPair_grid_grid] at h
  cases hc : countValidCells cm em with
  | error e => rw [hc] at h; exact absurd h (by simp)
  | ok v =>
    rw [hc] at h
    injection h with h'
    rw [← h']

/-! ## Python dict semantics and path parsing -/

/-- After an overwrite, the key is found with the new value. -/
theorem find_overwrite (d : List (String × String)) (k v : String)
    (h : (d.any fun kv => kv.1 = k) = true) :
    ((d.map fun kv => if kv.1 = k then (k, v) else kv).find?
      fun kv => kv.1 = k) = some (k, v) := by
  induction d with
  | nil => simp at h
  | cons kv t ih =>
    rw [List.map_cons]
    by_cases hk : kv.1 = k
    · rw [if_pos hk]
      exact List.find?_cons_of_pos _ (by simp)
    · rw [if_neg hk, List.find?_cons_of_neg _ (by simpa using hk)]
      apply ih
      rw [List.any_cons] at h
      simpa [hk] using h

/-- An overwrite of key `k` leaves lookups of other keys alone. -/
theorem find_overwrite_ne (d : List (String × String)) (k v k' : String)
    (hne : k' ≠ k) :
    ((d.map fun kv => if kv.1 = k then (k, v) else kv).find?
        fun kv => kv.1 = k')
      = d.find? fun kv => kv.1 = k' := by
  induction d with
  | nil => rfl
  | cons kv t ih =>
    rw [List.map_cons]
    by_cases hk : kv.1 = k
    · have h1 : ¬((k, v).1 = k') := fun he => hne he.symm
      have h2 : ¬(kv.1 = k') := by rw [hk]; exact fun he => hne he.symm
      rw [if_pos hk, List.find?_cons_of_neg _ (by simpa using h1),
        List.find?_cons_of_neg _ (by simpa using h2), ih]
    · rw [if_neg hk]
      by_cases hk' : kv.1 = k'
      · rw [List.find?_cons_of_pos _ (by simpa using hk'),
          List.find?_cons_of_pos _ (by simpa using hk')]
      · rw [List.find?_cons_of_neg _ (by simpa using hk'),
          List.find?_cons_of_neg _ (by simpa using hk'), ih]

/-- `d[k] = v` stores `v` under `k`. -/
theorem dictGet_dictInsert_self (d : List (String × String)) (k v : String) :
    dictGet (dictInsert d k v) k = v := by
  rw [dictInsert]
  by_cases h : (d.any fun kv => kv.1 = k) = true
  · rw [if_pos h, dictGet, find_overwrite d k v h]
  · rw [if_neg h, dictGet]
    have : ((d ++ [(k, v)]).find? fun kv => kv.1 = k) = some (k, v) := by
      induction d with
      | nil => exact List.find?_cons_of_pos _ (by simp)
      | cons kv t ih =>
        rw [List.any_cons, Bool.or_eq_true] at h
        rw [List.cons_append,
          List.find?_cons_of_neg _ (by simpa using fun he => h (Or.inl (by simpa using he)))]
        exact ih fun ht => h (Or.inr ht)
    rw [this]

/-- Appending a fresh key at the back leaves other keys' lookups alone. -/
theorem find_append_singleton_ne (d : List (String × String)) (k v k' : String)
    (hne : k' ≠ k) :
    ((d ++ [(k, v)]).find? fun kv => kv.1 = k')
      = d.find? fun kv => kv.1 = k' := by
  induction d with
  | nil =>
    rw [List.nil_append,
      List.find?_cons_of_neg _ (by simpa using fun he => hne he.symm)]
  | cons kv t ih =>
    by_cases hk' : kv.1 = k'
    · rw [List.cons_append, List.find?_cons_of_pos _ (by simpa using hk'),
        List.find?_cons_of_pos _ (by simpa using hk')]
    · rw [List.cons_append, List.find?_cons_of_neg _ (by simpa using hk'),
        List.find?_cons_of_neg _ (by simpa using hk'), ih]

/-- `d[k] = v` leaves every other key's lookup unchanged. -/
theorem dictGet_dictInsert_ne (d : List (String × String)) (k v k' : String)
    (hne : k' ≠ k) : dictGet (dictInsert d k v) k' = dictGet d k' := by
  rw [dictInsert]
  by_cases h : (d.any fun kv => kv.1 = k) = true
  · rw [if_pos h, dictGet, find_overwrite_ne d k v k' hne, dictGet]
  · rw [if_neg h, dictGet, dictGet, find_append_singleton_ne d k v k' hne]

/-- Lookup of a cons cell whose head key matches. -/
theorem dictGet_cons_self {kv : String × String} {d : List (String × String)}
    {k : String} (h : kv.1 = k) : dictGet (kv :: d) k = kv.2 := by
  rw [dictGet, List.find?_cons_of_pos _ (by simpa using h)]

/-- Lookup of a cons cell whose head key differs. -/
theorem dictGet_cons_ne {kv : String × String} {d : List (String × String)}
    {k : String} (h : ¬ kv.1 = k) : dictGet (kv :: d) k = dictGet d k := by
  rw [dictGet, List.find?_cons_of_neg _ (by simpa using h), dictGet]

/-- Folding fresh keys into a dict appends them in order. -/
theorem foldl_dictInsert_fresh (parts : List String) :
    ∀ (l : List (Nat × String)) (acc : List (String × String)),
      (l.map Prod.snd).Nodup →
      (∀ p ∈ l, ∀ kv ∈ acc, kv.1 ≠ p.2) →
      l.foldl (fun r ic => dictInsert r ic.2 (parts.getD ic.1 "")) acc
        = acc ++ l.map fun ic => (ic.2, parts.getD ic.1 "") := by
  intro l
  induction l with
  | nil => intro acc _ _; simp
  | cons p t ih =>
    intro acc hnd hfresh
    rw [List.foldl_cons]
    have hins : dictInsert acc p.2 (parts.getD p.1 "")
        = acc ++ [(p.2, parts.getD p.1 "")] := by
      rw [dictInsert, if_neg]
      intro hany
      obtain ⟨kv, hkv, heq⟩ := List.any_eq_true.mp hany
      exact hfresh p (List.mem_cons_self ..) kv hkv (by simpa using heq)
    rw [List.map_cons] at hnd
    rw [hins, ih (acc ++ [(p.2, parts.getD p.1 "")]) hnd.of_cons ?_]
    · simp
    · intro q hq kv hkv
      rcases List.mem_append.mp hkv with h1 | h2
      · exact hfresh q (List.mem_cons_of_mem _ hq) kv h1
      · rcases List.mem_singleton.mp h2 with rfl
        have hc : p.2 ∉ t.map Prod.snd := (List.nodup_cons.mp hnd).1
        intro he
        have he' : p.2 = q.2 := he
        exact hc (he' ▸ List.mem_map_of_mem Prod.snd hq)

/-- With distinct column names, `parse_path_to_columns` is the positional
association list. -/
theorem parse_nodup (dirParts : List String) (fn : String)
    (names : List String) (hnd : names.Nodup) :
    parse_path_to_columns dirParts fn names
      = names.enum.map fun ic =>
          (ic.2, (pathParts dirParts fn).getD ic.1 "") := by
  rw [parse_path_to_columns]
  rw [foldl_dictInsert_fresh (pathParts dirParts fn) names.enum []
    (by rw [List.enum_map_snd]; exact hnd) (by intro p hp kv hkv; simp at hkv)]
  simp

/-- Looking a name up in the positional association list returns the
segment at the name's position. -/
theorem dictGet_enumFrom_map (names : List String) (vals : Nat → String)
    (hnd : names.Nodup) :
    ∀ (k i : Nat) (hi : i < names.length),
      dictGet ((names.enumFrom k).map fun ic => (ic.2, vals ic.1))
        (names.get ⟨i, hi⟩) = vals (k + i) := by
  induction names with
  | nil => intro k i hi; simp at hi
  | cons c t ih =>
    intro k i hi
    rw [List.enumFrom_cons, List.map_cons]
    cases i with
    | zero =>
      rw [show (c :: t).get ⟨0, hi⟩ = c from rfl, Nat.add_zero]
      exact dictGet_cons_self rfl
    | succ j =>
      have hj : j < t.length := by simpa using hi
      show dictGet _ (t.get ⟨j, hj⟩) = vals (k + (j + 1))
      have hcne : ¬(c = t.get ⟨j, hj⟩) :=
        fun he => (List.nodup_cons.mp hnd).1 (he ▸ t.get_mem ..)
      rw [dictGet_cons_ne hcne]
      have harith : k + (j + 1) = (k + 1) + j := by omega
      rw [harith]
      exact ih (List.nodup_cons.mp hnd).2 (k + 1) j hj

/-- Inserting keys other than `name` never disturbs `name`'s binding. -/
theorem dictGet_foldl_of_not_mem (parts : List String) :
    ∀ (l : List (Nat × String)) (acc : List (String × String)) (name : String),
      (∀ p ∈ l, p.2 ≠ name) →
      dictGet (l.foldl (fun r ic => dictInsert r ic.2 (parts.getD ic.1 "")) acc)
          name
        = dictGet acc name := by
  intro l
  induction l with
  | nil => intros; rfl
  | cons p t ih =>
    intro acc name h
    rw [List.foldl_cons, ih _ _ fun q hq => h q (List.mem_cons_of_mem _ hq),
      dictGet_dictInsert_ne _ _ _ _ (h p (List.mem_cons_self ..)).symm]

/-- When a column name repeats, its binding is the segment of its last
occurrence: each later assignment of the same key overwrites the earlier. -/
theorem parse_last_occurrence (dirParts : List String) (fn : String)
    (names : List String) (name : String) (j : Nat) (hj : j < names.length)
    (hnj : names.get ⟨j, hj⟩ = name)
    (hlast : ∀ k (hk : k < names.length), names.get ⟨k, hk⟩ = name → k ≤ j) :
    dictGet (parse_path_to_columns dirParts fn names) name
      = (pathParts dirParts fn).getD j "" := by
  have hsplit : names.enum
      = (names.take j).enum
        ++ (j, name) :: (names.drop (j + 1)).enumFrom (j + 1) := by
    conv_lhs => rw [← List.take_append_drop j names]
    show ((names.take j ++ names.drop j).enumFrom 0) = _
    rw [List.enumFrom_append]
    have hlen : (names.take j).length = j := by
      rw [List.length_take]
      omega
    rw [hlen, Nat.zero_add, List.drop_eq_getElem_cons hj, List.enumFrom_cons]
    rw [show names[j] = names.get ⟨j, hj⟩ from rfl, hnj]
    rfl
  rw [parse_path_to_columns, hsplit, List.foldl_append, List.foldl_cons]
  rw [dictGet_foldl_of_not_mem]
  · exact dictGet_dictInsert_self ..
  · intro p hp he
    have hsnd : p.2 ∈ names.drop (j + 1) := by
      have hm := List.enumFrom_map_snd (j + 1) (names.drop (j + 1))
      exact hm ▸ List.mem_map_of_mem Prod.snd hp
    obtain ⟨k, hk, hkeq⟩ := List.mem_iff_getElem.mp hsnd
    have hklen : j + 1 + k < names.length := by
      have := List.length_drop (j + 1) names
      omega
    have hkname : names.get ⟨j + 1 + k, hklen⟩ = name := by
      rw [List.get_eq_getElem, ← List.getElem_drop, hkeq, he]
    have := hlast _ hklen hkname
    omega

/-- A row identity cell is the dict lookup of its column name. -/
theorem excelRow_getD (pc : List (String × String)) (names : List String)
    (i : Nat) (hi : i < names.length) :
    (excelRow pc names).getD i "" = dictGet pc (names.get ⟨i, hi⟩) := by
  rw [excelRow, List.getD_eq_getElem?_getD, List.getElem?_map,
    List.getElem?_eq_getElem hi]
  rfl

/-- A string produced by no column lookup does not appear in the row. -/
theorem not_mem_excelRow (pc : List (String × String)) (names : List String)
    (s : String)
    (h : ∀ k (hk : k < names.length), dictGet pc (names.get ⟨k, hk⟩) ≠ s) :
    s ∉ excelRow pc names := by
  rw [excelRow]
  intro hmem
  obtain ⟨col, hcol, heq⟩ := List.mem_map.mp hmem
  obtain ⟨k, hk, hkeq⟩ := List.mem_iff_getElem.mp hcol
  exact h k hk (by rw [List.get_eq_getElem, hkeq, heq])

/-! ## The claims -/

/-- C1: the spec says a cell/exclusion shape mismatch is skipped with a
warning and the run continues; the code performs no dimension check.  With
a 2×2 cell grid whose only label has centroid (1,1) and a 1×1 exclusion
grid, the centroid lookup raises an uncaught `IndexError` and the whole
batch aborts: the second, well-formed pair is never processed. -/
theorem dimension_mismatch_aborts_run :
    shape [[0, 0], [0, 1]] ≠ shape [[0]]
    ∧ runBatch [(.grid [[0, 0], [0, 1]], .present (.grid [[0]])),
        (.grid [[1]], .present (.grid [[0]]))] 2 = .error () := by
  constructor
  · decide
  · have h1 : countValidCells [[0, 0], [0, 1]] [[0]] = Except.error () := by
      apply countValidCells_eq_dedup_err
      simp only [centroid_eq_div]
      decide
    rw [runBatch, processPair]
    simp [h1]

/-- C2: on same-shape grids the counting loop succeeds and returns exactly
the number of distinct strictly positive labels whose centroid (the
truncated mean of the label's row and column indices) lands on a zero of
the exclusion grid; the background label 0 is never among the candidates. -/
theorem count_matches_centroid_exclusion_rule (cm em : Grid)
    (hcm : Rectangular cm) (hem : Rectangular em)
    (hsh : shape em = shape cm) :
    countValidCells cm em = Except.ok
        (((positiveLabels cm).filter fun L =>
          getPix em (centroid cm L).1 (centroid cm L).2 = some 0).card)
      ∧ (0 : Int) ∉ positiveLabels cm := by
  have hh : height em = height cm := congrArg Prod.fst hsh
  have hw : width em = width cm := congrArg Prod.snd hsh
  have hsome : ∀ L ∈ uniqueCells cm,
      (getPix em (centroid cm L).1 (centroid cm L).2).isSome := by
    intro L hL
    obtain ⟨hy, hx⟩ := centroid_lt hcm (mem_flatten_of_mem_uniqueCells hL)
    exact getPix_isSome hem (hh ▸ hy) (hw ▸ hx)
  constructor
  · rw [countValidCells_eq, if_pos hsome]
    congr 1
    rw [(uniqueCells_perm cm).countP_eq, countP_dedup_card]
    apply congrArg
    refine Finset.filter_congr fun L _ => ?_
    simp
  · rw [positiveLabels, List.mem_toFinset]
    intro h0
    have := (List.mem_filter.mp h0).2
    simp at this

theorem count_matches_centroid_exclusion_rule_witness :
    countValidCells [[0, 1], [0, 1]] [[0, 0], [7, 0]] = Except.ok
        (((positiveLabels [[0, 1], [0, 1]]).filter fun L =>
          getPix [[0, 0], [7, 0]] (centroid [[0, 1], [0, 1]] L).1
            (centroid [[0, 1], [0, 1]] L).2 = some 0).card)
      ∧ (0 : Int) ∉ positiveLabels [[0, 1], [0, 1]] :=
  count_matches_centroid_exclusion_rule [[0, 1], [0, 1]] [[0, 0], [7, 0]]
    (by decide) (by decide) (by decide)

/-- C3 counterexample: an exclusion payload without the `'masks'` key is
not skipped; the pair is processed against an all-zero exclusion grid and
yields a record. -/
theorem exclusion_missing_key_pair_not_skipped :
    processPair (.grid [[1]]) (.present .missingKey) 2
        = .recorded ⟨1, 4, 1 / 4⟩
      ∧ processPair (.grid [[1]]) (.present .missingKey) 2 ≠ .skipped := by
  have h1 : countValidCells [[1]] [[0]] = Except.ok 1 := by
    rw [countValidCells_eq_dedup_ok]
    · simp only [Except.ok.injEq, centroid_eq_div]
      decide
    · simp only [centroid_eq_div]
      decide
  have h2 : processPair (.grid [[1]]) (.present .missingKey) 2
      = .recorded ⟨1, 4, 1 / 4⟩ := by
    rw [processPair]
    simp only [zerosLike, List.map]
    norm_num [h1, density, countZeros]
  exact ⟨h2, by rw [h2]; simp⟩

/-- C3 amended: a raising deserialization skips the pair for either file,
and a missing `'masks'` key skips the pair for the cell file; for the
exclusion file a missing key instead substitutes the all-zero grid and the
pair is processed; a skipped pair leaves the batch to continue. -/
theorem decode_failure_skip_policy :
    (∀ excl ps, processPair .raises excl ps = .skipped)
    ∧ (∀ excl ps, processPair .missingKey excl ps = .skipped)
    ∧ (∀ g ps, processPair (.grid g) (.present .raises) ps = .skipped)
    ∧ (∀ g ps, processPair (.grid g) (.present .missingKey) ps
        = processPair (.grid g) (.present (.grid (zerosLike g))) ps)
    ∧ (∀ c e ps rest, processPair c e ps = .skipped →
        runBatch ((c, e) :: rest) ps = runBatch rest ps) := by
  refine ⟨fun excl ps => rfl, fun excl ps => rfl, fun g ps => rfl,
    fun g ps => processPair_exclusion_missingKey g ps, ?_⟩
  intro c e ps rest h
  rw [runBatch, h]

theorem decode_failure_skip_policy_witness :
    runBatch [(.raises, .absent)] 1 = runBatch [] 1 :=
  decode_failure_skip_policy.2.2.2.2 .raises .absent 1 []
    (decode_failure_skip_policy.1 .absent 1)

/-- C4: with no exclusion artifact the all-zero stand-in grid is used, the
pair is processed (recorded, not skipped), every distinct positive label is
counted, and the area is the full pixel count times the squared pixel
size. -/
theorem missing_exclusion_treated_as_no_exclusion (g : Grid) (ps : ℚ)
    (hg : Rectangular g) :
    ∃ r, processPair (.grid g) .absent ps = .recorded r
      ∧ r.total_cells = (positiveLabels g).card
      ∧ r.total_area = (numPixels g : ℚ) * ps ^ 2 := by
  refine ⟨⟨(positiveLabels g).card,
    (countZeros (zerosLike g) : ℚ) * ps ^ 2,
    density (positiveLabels g).card
      ((countZeros (zerosLike g) : ℚ) * ps ^ 2)⟩, ?_, rfl, ?_⟩
  · rw [processPair_absent, processPair_grid_grid,
      countValidCells_zerosLike g hg]
  · rw [countZeros_zerosLike]

theorem missing_exclusion_treated_as_no_exclusion_witness :
    ∃ r, processPair (.grid [[0, 5], [0, 0]]) .absent 3 = .recorded r
      ∧ r.total_cells = (positiveLabels [[0, 5], [0, 0]]).card
      ∧ r.total_area = (numPixels [[0, 5], [0, 0]] : ℚ) * 3 ^ 2 :=
  missing_exclusion_treated_as_no_exclusion [[0, 5], [0, 0]] 3 (by decide)

/-- C5: density is the guarded quotient — count over area when the area is
positive, 0 when the area is 0 — and, as a total function, computing it
never faults. -/
theorem density_guarded (valid : Nat) (area : ℚ) :
    (0 < area → density valid area = (valid : ℚ) / area)
    ∧ (area = 0 → density valid area = 0) := by
  constructor
  · intro h
    rw [density, if_pos h]
  · intro h
    rw [density, h, if_neg (lt_irrefl 0)]

theorem density_guarded_witness :
    density 3 4 = (3 : ℚ) / 4 ∧ density 5 0 = 0 :=
  ⟨(density_guarded 3 4).1 (by decide), (density_guarded 5 0).2 rfl⟩

/-- C6: a recorded pair's area column is the exclusion grid's zero count
times the squared pixel size, independent of the cell grid; under the
all-zero fallback it is the full pixel count times the squared pixel
size. -/
theorem area_counts_zero_exclusion_pixels (cm em : Grid) (ps : ℚ)
    (r : CellRecord)
    (h : processPair (.grid cm) (.present (.grid em)) ps = .recorded r) :
    r.total_area = (countZeros em : ℚ) * ps ^ 2
    ∧ (∀ cm2 r2,
        processPair (.grid cm2) (.present (.grid em)) ps = .recorded r2 →
        r2.total_area = r.total_area)
    ∧ ∀ r3, processPair (.grid cm) .absent ps = .recorded r3 →
        r3.total_area = (numPixels cm : ℚ) * ps ^ 2 := by
  refine ⟨recorded_total_area h, ?_, ?_⟩
  · intro cm2 r2 h2
    rw [recorded_total_area h2, recorded_total_area h]
  · intro r3 h3
    rw [processPair_absent] at h3
    rw [recorded_total_area h3, countZeros_zerosLike]

theorem area_counts_zero_exclusion_pixels_witness :
    (CellRecord.mk 0 0 0).total_area = (countZeros [[3]] : ℚ) * 1 ^ 2
    ∧ (∀ cm2 r2,
        processPair (.grid cm2) (.present (.grid [[3]])) 1 = .recorded r2 →
        r2.total_area = (CellRecord.mk 0 0 0).total_area)
    ∧ ∀ r3, processPair (.grid [[1]]) .absent 1 = .recorded r3 →
        r3.total_area = (numPixels [[1]] : ℚ) * 1 ^ 2 := by
  have h1 : countValidCells [[1]] [[3]] = Except.ok 0 := by
    rw [countValidCells_eq_dedup_ok]
    · simp only [Except.ok.injEq, centroid_eq_div]
      decide
    · simp only [centroid_eq_div]
      decide
  have h : processPair (.grid [[1]]) (.present (.grid [[3]])) 1
      = .recorded ⟨0, 0, 0⟩ := by
    rw [processPair_grid_grid, h1]
    norm_num [density, countZeros]
  exact area_counts_zero_exclusion_pixels [[1]] [[3]] 1 ⟨0, 0, 0⟩ h

/-- C7: with distinct supplied column names the mapping is positional:
name i receives flat-list segment i (directory segments, then the stripped
filename), names past the list's end receive the empty string, and the
mapping's keys are exactly the supplied names, so excess segments are
dropped. -/
theorem columns_positional_mapping (dirParts : List String) (fn : String)
    (names : List String) (hnd : names.Nodup) :
    (parse_path_to_columns dirParts fn names).map Prod.fst = names
    ∧ ∀ i (hi : i < names.length),
        dictGet (parse_path_to_columns dirParts fn names) (names.get ⟨i, hi⟩)
          = (pathParts dirParts fn).getD i "" := by
  constructor
  · rw [parse_nodup dirParts fn names hnd, List.map_map]
    have heq : (Prod.fst ∘ fun ic : Nat × String =>
        (ic.2, (pathParts dirParts fn).getD ic.1 "")) = Prod.snd := rfl
    rw [heq, List.enum_map_snd]
  · intro i hi
    rw [parse_nodup dirParts fn names hnd,
      show names.enum = names.enumFrom 0 from rfl]
    have h := dictGet_enumFrom_map names
      (fun k => (pathParts dirParts fn).getD k "") hnd 0 i hi
    rw [Nat.zero_add] at h
    exact h

theorem columns_positional_mapping_witness :
    dictGet (parse_path_to_columns ["A", "B"] "C_seg.npy"
      ["gene", "mouse"]) "gene" = "A"
    ∧ dictGet (parse_path_to_columns ["A", "B"] "C_seg.npy"
      ["gene", "mouse"]) "mouse" = "B" := by
  have h := columns_positional_mapping ["A", "B"] "C_seg.npy"
    ["gene", "mouse"] (by decide)
  exact ⟨h.2 0 (by decide), h.2 1 (by decide)⟩

/-- C8: a counting run that returns normally yields at most one valid cell
per distinct positive label, and none when no positive label occurs. -/
theorem valid_count_bounded (cm em : Grid) (n : Nat)
    (h : countValidCells cm em = Except.ok n) :
    n ≤ (positiveLabels cm).card ∧ (positiveLabels cm = ∅ → n = 0) := by
  rw [countValidCells_eq] at h
  by_cases hc : ∀ L ∈ uniqueCells cm,
      (getPix em (centroid cm L).1 (centroid cm L).2).isSome
  · rw [if_pos hc] at h
    injection h with hv
    constructor
    · rw [← hv, ← length_uniqueCells]
      exact List.countP_le_length _
    · intro hempty
      have hnil : uniqueCells cm = [] := by
        apply List.length_eq_zero.mp
        rw [length_uniqueCells, hempty, Finset.card_empty]
      rw [← hv, hnil]
      rfl
  · rw [if_neg hc] at h
    exact absurd h (by simp)

theorem valid_count_bounded_witness :
    1 ≤ (positiveLabels [[0, 1], [0, 1]]).card
    ∧ (positiveLabels [[0, 1], [0, 1]] = ∅ → 1 = 0) := by
  apply valid_count_bounded [[0, 1], [0, 1]] [[0, 0], [0, 0]] 1
  rw [countValidCells_eq_dedup_ok]
  · simp only [Except.ok.injEq, centroid_eq_div]
    decide
  · simp only [centroid_eq_div]
    decide

/-- C9: without column names the record identity is the pair (name of the
immediate containing directory, empty at the scanned root; the rendered
relative path). -/
theorem fallback_identity_pair (dirParts : List String) (fn : String) :
    (dirParts = [] → (fallbackIdentity dirParts fn).1 = "")
    ∧ (∀ ds d, dirParts = ds ++ [d] → (fallbackIdentity dirParts fn).1 = d)
    ∧ (fallbackIdentity dirParts fn).2
        = String.intercalate "/" (dirParts ++ [fn]) := by
  refine ⟨fun h => by rw [h]; rfl, ?_, rfl⟩
  intro ds d h
  subst h
  rw [fallbackIdentity]
  simp [List.getLastD_concat]

theorem fallback_identity_pair_witness :
    (fallbackIdentity ["A", "B"] "f.npy").1 = "B"
    ∧ (fallbackIdentity ["A", "B"] "f.npy").2
        = String.intercalate "/" (["A", "B"] ++ ["f.npy"]) :=
  ⟨(fallback_identity_pair ["A", "B"] "f.npy").2.1 ["A"] "B" rfl,
   (fallback_identity_pair ["A", "B"] "f.npy").2.2⟩

/-- C10: a column name repeated at positions i < j, with j its last
occurrence and inside the flat segment list, is bound to segment j (the
later positional assignment overwrites the earlier); the report row shows
that one value in both of the name's columns, and the segment at position
i appears in no cell of the row as long as no other column produces it. -/
theorem duplicate_column_last_wins (dirParts : List String) (fn : String)
    (names : List String) (name : String) (i j : Nat)
    (hij : i < j) (hj : j < names.length)
    (hni : names.get ⟨i, Nat.lt_trans hij hj⟩ = name)
    (hnj : names.get ⟨j, hj⟩ = name)
    (hlast : ∀ k (hk : k < names.length), names.get ⟨k, hk⟩ = name → k ≤ j)
    (hjp : j < (pathParts dirParts fn).length) :
    dictGet (parse_path_to_columns dirParts fn names) name
      = (pathParts dirParts fn).getD j ""
    ∧ (excelRow (parse_path_to_columns dirParts fn names) names).getD i ""
      = (pathParts dirParts fn).getD j ""
    ∧ (excelRow (parse_path_to_columns dirParts fn names) names).getD j ""
      = (pathParts dirParts fn).getD j ""
    ∧ ((pathParts dirParts fn).getD i "" ≠ (pathParts dirParts fn).getD j ""
      → (∀ k (hk : k < names.length), names.get ⟨k, hk⟩ ≠ name →
          dictGet (parse_path_to_columns dirParts fn names)
            (names.get ⟨k, hk⟩) ≠ (pathParts dirParts fn).getD i "")
      → (pathParts dirParts fn).getD i ""
          ∉ excelRow (parse_path_to_columns dirParts fn names) names)
    ∧ (pathParts dirParts fn).getD j ""
      = (pathParts dirParts fn).get ⟨j, hjp⟩ := by
  have hmain := parse_last_occurrence dirParts fn names name j hj hnj hlast
  refine ⟨hmain, ?_, ?_, ?_, ?_⟩
  · rw [excelRow_getD _ _ i (Nat.lt_trans hij hj), hni, hmain]
  · rw [excelRow_getD _ _ j hj, hnj, hmain]
  · intro hne hother
    apply not_mem_excelRow
    intro k hk
    by_cases hkn : names.get ⟨k, hk⟩ = name
    · rw [hkn, hmain]
      exact fun he => hne he.symm
    · exact hother k hk hkn
  · rw [List.getD_eq_getElem?_getD, List.getElem?_eq_getElem hjp]
    rfl

theorem duplicate_column_last_wins_witness :
    dictGet (parse_path_to_columns ["x", "y"] "z_seg.npy"
      ["a", "b", "a"]) "a" = "z"
    ∧ (excelRow (parse_path_to_columns ["x", "y"] "z_seg.npy"
      ["a", "b", "a"]) ["a", "b", "a"]).getD 0 "" = "z"
    ∧ "x" ∉ excelRow (parse_path_to_columns ["x", "y"] "z_seg.npy"
      ["a", "b", "a"]) ["a", "b", "a"] := by
  have h := duplicate_column_last_wins ["x", "y"] "z_seg.npy"
    ["a", "b", "a"] "a" 0 2 (by decide) (by decide) (by decide) (by decide)
    (by decide) (by decide)
  exact ⟨h.1, h.2.1, h.2.2.2.1 (by decide) (by decide)⟩

end CellCount
